import Mathlib

/-!
Verification of the disentanglement-metrics library of `odin.bay.vi.metrics`.

Conventions of the shallow embedding:
* numpy floating point values are modelled by the real numbers `ℝ`;
  division by zero in `ℝ` is Lean's convention `x / 0 = 0`, used only where
  the python value is a NaN no claim is about; the `np.nan_to_num` call in
  `relative_strength`, which also maps `+inf` to the largest finite float,
  is modelled explicitly by `nan_to_num_div`.
* a matrix of discrete labels (`codes`, `factors`) is a list of its columns
  (the python code only ever accesses such matrices column by column);
  a real-valued matrix (importance matrix, correlation matrix) is a list of
  its rows, matching the row-major numpy layout, with `colOf` extracting a
  column.
* a python call that raises is modelled by `Except PyError`.
-/

namespace Odin

/-- The two kinds of python exceptions relevant to `unsupervised_clustering_scores`:
a `NameError` carrying the unbound name, and a `ValueError` carrying the message. -/
inductive PyError where
  | nameError : String → PyError
  | valueError : String → PyError
deriving DecidableEq

/-- The dictionary `dict(ASW=..., ARI=..., NMI=..., UCA=...)` that the docstring of
`unsupervised_clustering_scores` promises as return value. -/
structure ClusterScores where
  ASW : ℝ
  ARI : ℝ
  NMI : ℝ
  UCA : ℝ

/-- Modelled from the spec: the star-imported module `odin.bay.vi.downstream_metrics`
is not part of the analysed sources; by the spec, the external interface of the
metrics core consists of the listed functions (`separated_attr_predictability`,
`beta_vae_score`, `factor_vae_score`, the clustering-accuracy helper, ...).
Neither a function `clustering_scores` nor a module-level constant `n_factors`
is among them, so inside `unsupervised_clustering_scores` both names are unbound
and looking them up raises `NameError`.

`unsupervised_clustering_scores(representations, factors, prediction_algorithm, seed)`
from `odin/bay/vi/metrics.py`.  The initial argmax-normalisation of `factors`
cannot raise and its result is only consumed after each branch below has already
raised, so it is elided.  Branch by branch:
* `knn` evaluates `KMeans(n_factors, ...)`; the lookup of `n_factors` raises.
* `gmm` evaluates `GaussianMixture(n_factors, ...)`; the lookup of `n_factors` raises.
* `both` evaluates `clustering_scores(...)`; the lookup of the function name
  `clustering_scores` raises (the name is loaded before its arguments).
* any other name reaches the `raise ValueError` with the offending name
  interpolated into the message (the quotation marks that python wraps around
  the name are dropped here). -/
def unsupervised_clustering_scores (representations factors : List (List ℝ))
    (prediction_algorithm : String) (seed : ℕ) : Except PyError ClusterScores :=
  if prediction_algorithm = "knn" then
    Except.error (PyError.nameError "n_factors")
  else if prediction_algorithm = "gmm" then
    Except.error (PyError.nameError "n_factors")
  else if prediction_algorithm = "both" then
    Except.error (PyError.nameError "clustering_scores")
  else
    Except.error (PyError.valueError
      ("Not support for prediction_algorithm: " ++ prediction_algorithm))

/-- C8: an unsupported `prediction_algorithm` makes the function fail at once
with a `ValueError` whose message contains the invalid name; since every branch
of the function errors before any clustering is run, no clustering computation
is performed on this path. -/
theorem unsupported_algorithm_raises_valueError
    (representations factors : List (List ℝ)) (seed : ℕ) (alg : String)
    (h1 : alg ≠ "knn") (h2 : alg ≠ "gmm") (h3 : alg ≠ "both") :
    ∃ msg : String,
      unsupervised_clustering_scores representations factors alg seed =
        Except.error (PyError.valueError msg) ∧
      ∃ pre post : String, msg = pre ++ alg ++ post := by
  refine ⟨"Not support for prediction_algorithm: " ++ alg, ?_, "Not support for prediction_algorithm: ", "", ?_⟩
  · simp [unsupervised_clustering_scores, h1, h2, h3]
  · simp

/-- Witness for C8 at the concrete invalid name `kmeans`. -/
theorem unsupported_algorithm_raises_valueError_witness :
    ∃ msg : String,
      unsupervised_clustering_scores [[0, 1], [1, 0]] [[0], [1]] "kmeans" 1 =
        Except.error (PyError.valueError msg) ∧
      ∃ pre post : String, msg = pre ++ "kmeans" ++ post :=
  unsupported_algorithm_raises_valueError [[0, 1], [1, 0]] [[0], [1]] 1 "kmeans"
    (by decide) (by decide) (by decide)

/-- C10: each of the supported algorithm names `knn`, `gmm`, `both` hits an
unbound name (`n_factors`, resp. `clustering_scores`) and raises `NameError`
before any score is produced; moreover no input whatsoever makes the function
return the promised ASW/ARI/NMI/UCA dictionary. -/
theorem supported_algorithms_raise_nameError
    (representations factors : List (List ℝ)) (seed : ℕ) (alg : String) :
    ((alg = "knn" ∨ alg = "gmm" ∨ alg = "both") →
      ∃ n : String,
        unsupervised_clustering_scores representations factors alg seed =
          Except.error (PyError.nameError n)) ∧
    ∀ s : ClusterScores,
      unsupervised_clustering_scores representations factors alg seed ≠ Except.ok s := by
  constructor
  · rintro (rfl | rfl | rfl)
    · exact ⟨"n_factors", by simp [unsupervised_clustering_scores]⟩
    · exact ⟨"n_factors", by simp [unsupervised_clustering_scores]⟩
    · exact ⟨"clustering_scores", by simp [unsupervised_clustering_scores]⟩
  · intro s
    unfold unsupervised_clustering_scores
    split
    · simp
    · split
      · simp
      · split
        · simp
        · simp

/-- Witness for C10 at the concrete algorithm name `knn`. -/
theorem supported_algorithms_raise_nameError_witness :
    ∃ n : String,
      unsupervised_clustering_scores [[0, 1], [1, 0]] [[0], [1]] "knn" 1 =
        Except.error (PyError.nameError n) :=
  (supported_algorithms_raise_nameError [[0, 1], [1, 0]] [[0], [1]] 1 "knn").1
    (Or.inl rfl)

/-- `sklearn.metrics.cluster.entropy` of a 1-D list of integer labels:
Shannon entropy, in nats, of the empirical distribution of the labels.
For each distinct value `v` with count `c` out of `n` samples the term is
`-(c/n) * log (c/n)`; values absent from the list contribute nothing. -/
noncomputable def entropy1D (labels : List ℤ) : ℝ :=
  ∑ v ∈ labels.toFinset,
    -((labels.count v : ℝ) / (labels.length : ℝ)) *
      Real.log ((labels.count v : ℝ) / (labels.length : ℝ))

/-- `sklearn.metrics.mutual_info_score(labels_true, labels_pred)`: the
contingency-table mutual information, in nats.  For each pair of values
`(a, b)` with joint count `n_ab`, marginal counts `n_a`, `n_b` and `n` samples
the term is `(n_ab/n) * log (n * n_ab / (n_a * n_b))`; empty cells of the
contingency table contribute `0` (here because their coefficient `n_ab/n`
vanishes). -/
noncomputable def mutual_info_score (labels_true labels_pred : List ℤ) : ℝ :=
  ∑ a ∈ labels_true.toFinset, ∑ b ∈ labels_pred.toFinset,
    (((labels_true.zip labels_pred).count (a, b) : ℝ) / (labels_true.length : ℝ)) *
      Real.log ((labels_true.length : ℝ) * ((labels_true.zip labels_pred).count (a, b) : ℝ) /
        ((labels_true.count a : ℝ) * (labels_pred.count b : ℝ)))

/-- `discrete_mutual_info(codes, factors)` from `odin/bay/vi/metrics.py`:
the `[n_codes, n_factors]` matrix with entry `(i, j)` equal to
`mutual_info_score(factors[:, j], codes[:, i])`.  Matrices of labels are
lists of columns. -/
noncomputable def discrete_mutual_info (codes factors : List (List ℤ)) : List (List ℝ) :=
  codes.map fun ci => factors.map fun fj => mutual_info_score fj ci

/-- `discrete_entropy(labels)` from `odin/bay/vi/metrics.py` on a 2-D input:
the vector of `entropy1D` values of the columns. -/
noncomputable def discrete_entropy (labels : List (List ℤ)) : List ℝ :=
  labels.map entropy1D

lemma count_zip_self_diag (l : List ℤ) (a : ℤ) :
    (l.zip l).count (a, a) = l.count a := by
  induction l with
  | nil => rfl
  | cons x t ih => simp [List.zip_cons_cons, List.count_cons, ih]

lemma count_zip_self_off_diag (l : List ℤ) (a b : ℤ) (hab : a ≠ b) :
    (l.zip l).count (a, b) = 0 := by
  induction l with
  | nil => rfl
  | cons x t ih =>
    rw [List.zip_cons_cons, List.count_cons, ih]
    simp only [beq_iff_eq, Prod.mk.injEq, Nat.zero_add]
    rw [if_neg]
    rintro ⟨rfl, rfl⟩
    exact hab rfl

/-- `List.getD` at an in-range index is the corresponding element. -/
lemma getD_of_lt {α : Type} (l : List α) (i : ℕ) (d : α) (h : i < l.length) :
    l.getD i d = l[i] := by
  rw [List.getD_eq_getElem?_getD, List.getElem?_eq_getElem h]
  rfl

/-- `List.getD` commutes with `List.map` at an in-range index. -/
lemma getD_map {α β : Type} (f : α → β) (l : List α) (i : ℕ) (d : α) (d' : β)
    (h : i < l.length) : (l.map f).getD i d' = f (l.getD i d) := by
  rw [getD_of_lt _ _ _ (by simpa using h), getD_of_lt _ _ _ h, List.getElem_map]

/-- Mutual information of a column of labels with itself equals its entropy. -/
lemma mutual_info_score_self (c : List ℤ) (hne : c ≠ []) :
    mutual_info_score c c = entropy1D c := by
  have hn : (0 : ℝ) < (c.length : ℝ) := by
    exact_mod_cast List.length_pos.2 hne
  unfold mutual_info_score entropy1D
  refine Finset.sum_congr rfl fun a ha => ?_
  rw [Finset.sum_eq_single_of_mem a ha]
  · have hca : 0 < c.count a := List.count_pos_iff.2 (List.mem_toFinset.1 ha)
    have hca' : (0 : ℝ) < (c.count a : ℝ) := by exact_mod_cast hca
    rw [count_zip_self_diag]
    have harg : (c.length : ℝ) * (c.count a : ℝ) / ((c.count a : ℝ) * (c.count a : ℝ)) =
        ((c.count a : ℝ) / (c.length : ℝ))⁻¹ := by
      field_simp
      ring
    rw [harg, Real.log_inv]
    ring
  · intro b _ hba
    rw [count_zip_self_off_diag c a b (Ne.symm hba)]
    simp

/-- C2: whenever column `i` of `codes` coincides with column `j` of `factors`
(and that column is non-empty, every column of a matrix with equal row counts
having the same length), entry `(i, j)` of `discrete_mutual_info codes factors`
equals `entropy1D` of that factor column, both computed in nats. -/
theorem discrete_mutual_info_identical_columns
    (codes factors : List (List ℤ)) (i j : ℕ)
    (hi : i < codes.length) (hj : j < factors.length)
    (hcol : codes.getD i [] = factors.getD j [])
    (hne : factors.getD j [] ≠ []) :
    ((discrete_mutual_info codes factors).getD i []).getD j 0 =
      entropy1D (factors.getD j []) := by
  unfold discrete_mutual_info
  rw [getD_map _ _ _ ([] : List ℤ) _ hi, getD_map _ _ _ ([] : List ℤ) _ hj, hcol]
  exact mutual_info_score_self _ hne

lemma entropy1D_two_balanced : entropy1D [0, 0, 1, 1] = Real.log 2 := by
  have htf : ([0, 0, 1, 1] : List ℤ).toFinset = {0, 1} := by decide
  unfold entropy1D
  rw [htf]
  rw [Finset.sum_insert (by decide), Finset.sum_singleton]
  norm_num [List.count_cons]
  rw [show (1 : ℝ) / 2 = (2 : ℝ)⁻¹ by norm_num, Real.log_inv]
  ring

/-- Witness for C2: the concrete scenario `codes = factors = [[0],[0],[1],[1]]`
(one column of four samples, written here as its column `[0,0,1,1]`), whose
mutual-information entry equals the entropy of the column, which is `ln 2`. -/
theorem discrete_mutual_info_identical_columns_witness :
    ((discrete_mutual_info [[0, 0, 1, 1]] [[0, 0, 1, 1]]).getD 0 []).getD 0 0 =
      entropy1D [0, 0, 1, 1] ∧ entropy1D [0, 0, 1, 1] = Real.log 2 :=
  ⟨discrete_mutual_info_identical_columns [[0, 0, 1, 1]] [[0, 0, 1, 1]] 0 0
      (by decide) (by decide) (by decide) (by decide),
    entropy1D_two_balanced⟩

/-- `np.mean` of a 1-D array (on an empty array numpy yields NaN; here the
`0 / 0 = 0` convention applies). -/
noncomputable def mean (l : List ℝ) : ℝ := l.sum / (l.length : ℝ)

/-- Column `j` of a row-major real matrix. -/
def colOf (m : List (List ℝ)) (j : ℕ) : List ℝ := m.map fun row => row.getD j 0

/-- `np.sort(...)[::-1]` applied to a 1-D slice: ascending sort followed by
reversal, i.e. the descending rearrangement of the slice. -/
noncomputable def sortDescend (l : List ℝ) : List ℝ :=
  (List.insertionSort (fun a b : ℝ => a ≤ b) l).reverse

/-- `mutual_info_gap(representations, factors)` from `odin/bay/vi/metrics.py`.
`m = discrete_mutual_info(representations, factors)` is sorted descending
along the code axis, per factor column.  Indexing `sorted_m[1, :]`
(and `sorted_m[0, :]`) requires at least two code columns; with fewer, numpy
raises `IndexError`, modelled by `none`.  Otherwise the result is the mean
over factors of `(sorted_m[0, j] - sorted_m[1, j]) / discrete_entropy(factors)[j]`. -/
noncomputable def mutual_info_gap (representations factors : List (List ℤ)) : Option ℝ :=
  if 2 ≤ representations.length then
    some (mean ((List.range factors.length).map fun j =>
      ((sortDescend (colOf (discrete_mutual_info representations factors) j)).getD 0 0 -
        (sortDescend (colOf (discrete_mutual_info representations factors) j)).getD 1 0) /
        (discrete_entropy factors).getD j 0))
  else none

/-- The largest element of a non-empty list (`0` on the empty list). -/
noncomputable def listMax : List ℝ → ℝ
  | [] => 0
  | a :: t => t.foldl max a

/-- The second-largest value of a list, counted with multiplicity: the largest
value remaining after removing one occurrence of the maximum. -/
noncomputable def secondLargest (l : List ℝ) : ℝ := listMax (l.erase (listMax l))

/-- The MIG contract as the spec words it: the mean over factors `j` of
`(top1_j - top2_j) / entropy(factor_j)` where `top1_j`, `top2_j` are the
largest and second-largest values of column `j` of the discrete
mutual-information matrix. -/
noncomputable def mutual_info_gap_spec (representations factors : List (List ℤ)) : ℝ :=
  mean ((List.range factors.length).map fun j =>
    (listMax (colOf (discrete_mutual_info representations factors) j) -
      secondLargest (colOf (discrete_mutual_info representations factors) j)) /
      entropy1D (factors.getD j []))

lemma le_foldl_max_init (t : List ℝ) (a : ℝ) : a ≤ t.foldl max a := by
  induction t generalizing a with
  | nil => exact le_refl a
  | cons b t ih => exact le_trans (le_max_left a b) (ih (max a b))

lemma le_foldl_max_mem (t : List ℝ) (a x : ℝ) (hx : x ∈ t) : x ≤ t.foldl max a := by
  induction t generalizing a with
  | nil => cases hx
  | cons b t ih =>
    rcases List.mem_cons.1 hx with rfl | hx
    · exact le_trans (le_max_right a x) (le_foldl_max_init t (max a x))
    · exact ih (max a b) hx

lemma foldl_max_cases (t : List ℝ) (a : ℝ) : t.foldl max a = a ∨ t.foldl max a ∈ t := by
  induction t generalizing a with
  | nil => exact Or.inl rfl
  | cons b t ih =>
    rcases ih (max a b) with h | h
    · rcases max_choice a b with hm | hm
      · exact Or.inl (by rw [List.foldl_cons, h, hm])
      · exact Or.inr (by rw [List.foldl_cons, h, hm]; exact List.mem_cons_self b t)
    · exact Or.inr (List.mem_cons_of_mem b h)

lemma listMax_mem (l : List ℝ) (h : l ≠ []) : listMax l ∈ l := by
  cases l with
  | nil => exact absurd rfl h
  | cons a t =>
    rcases foldl_max_cases t a with hc | hc
    · rw [listMax, hc]; exact List.mem_cons_self a t
    · rw [listMax]; exact List.mem_cons_of_mem a hc

lemma le_listMax (l : List ℝ) (x : ℝ) (hx : x ∈ l) : x ≤ listMax l := by
  cases l with
  | nil => cases hx
  | cons a t =>
    rcases List.mem_cons.1 hx with rfl | hx
    · exact le_foldl_max_init t x
    · exact le_foldl_max_mem t a x hx

lemma listMax_eq_of (l : List ℝ) (a : ℝ) (ha : a ∈ l) (hle : ∀ x ∈ l, x ≤ a) :
    listMax l = a :=
  le_antisymm (hle _ (listMax_mem l (List.ne_nil_of_mem ha))) (le_listMax l a ha)

lemma sortDescend_perm (l : List ℝ) : (sortDescend l).Perm l :=
  (List.reverse_perm _).trans (List.perm_insertionSort _ l)

lemma sortDescend_sorted (l : List ℝ) :
    (sortDescend l).Pairwise (fun a b : ℝ => b ≤ a) := by
  rw [sortDescend, List.pairwise_reverse]
  exact List.sorted_insertionSort _ l

/-- The head of a descending-sorted rearrangement of `l` is the maximum of `l`. -/
lemma sorted_desc_head_eq_listMax (s l : List ℝ)
    (hs : s.Pairwise (fun a b : ℝ => b ≤ a)) (hp : s.Perm l) (hne : l ≠ []) :
    s.getD 0 0 = listMax l := by
  cases s with
  | nil => exact absurd hp.symm.eq_nil hne
  | cons a t =>
    rw [List.getD_cons_zero]
    refine (listMax_eq_of l a (hp.subset (List.mem_cons_self a t)) ?_).symm
    intro x hx
    rcases List.mem_cons.1 (hp.symm.subset hx) with rfl | hxt
    · exact le_refl x
    · exact (List.pairwise_cons.1 hs).1 x hxt

/-- The second entry of a descending-sorted rearrangement of `l` is the
second-largest value of `l`. -/
lemma sorted_desc_second_eq (s l : List ℝ)
    (hs : s.Pairwise (fun a b : ℝ => b ≤ a)) (hp : s.Perm l) (h2 : 2 ≤ l.length) :
    s.getD 1 0 = secondLargest l := by
  have hlen : 2 ≤ s.length := by rw [hp.length_eq]; exact h2
  match s, hs, hp, hlen with
  | a :: b :: t, hs, hp, _ =>
    have hlne : l ≠ [] := by
      intro h
      rw [h] at h2
      exact absurd h2 (by norm_num)
    have ha : a = listMax l := by
      have := sorted_desc_head_eq_listMax (a :: b :: t) l hs hp hlne
      rwa [List.getD_cons_zero] at this
    have hmem : a ∈ l := hp.subset (List.mem_cons_self _ _)
    have hperase : ((b :: t) : List ℝ).Perm (l.erase a) := by
      have := hp.erase a
      rwa [List.erase_cons_head] at this
    have herasene : l.erase a ≠ [] := by
      have hlen' := List.length_erase_of_mem hmem
      intro h
      rw [h] at hlen'
      simp at hlen'
      omega
    have hb := sorted_desc_head_eq_listMax (b :: t) (l.erase a)
      ((List.pairwise_cons.1 hs).2) hperase herasene
    rw [List.getD_cons_zero] at hb
    rw [List.getD_cons_succ, List.getD_cons_zero, hb, secondLargest, ha]

/-- C3: with at least two code columns, `mutual_info_gap` returns exactly the
spec formula: the mean over factors of the gap between the largest and the
second-largest mutual information, normalised by the entropy of the factor. -/
theorem mutual_info_gap_eq_spec (representations factors : List (List ℤ))
    (h2 : 2 ≤ representations.length) :
    mutual_info_gap representations factors =
      some (mutual_info_gap_spec representations factors) := by
  unfold mutual_info_gap mutual_info_gap_spec
  rw [if_pos h2]
  congr 1
  unfold mean
  have hmap : ((List.range factors.length).map fun j =>
      ((sortDescend (colOf (discrete_mutual_info representations factors) j)).getD 0 0 -
        (sortDescend (colOf (discrete_mutual_info representations factors) j)).getD 1 0) /
        (discrete_entropy factors).getD j 0) =
      ((List.range factors.length).map fun j =>
      (listMax (colOf (discrete_mutual_info representations factors) j) -
        secondLargest (colOf (discrete_mutual_info representations factors) j)) /
        entropy1D (factors.getD j [])) := by
    apply List.map_congr_left
    intro j hj
    have hjlt : j < factors.length := List.mem_range.1 hj
    have hlen : (colOf (discrete_mutual_info representations factors) j).length =
        representations.length := by
      simp [colOf, discrete_mutual_info]
    have hne : colOf (discrete_mutual_info representations factors) j ≠ [] := by
      rw [← List.length_pos, hlen]
      omega
    rw [sorted_desc_head_eq_listMax _ _ (sortDescend_sorted _) (sortDescend_perm _) hne,
      sorted_desc_second_eq _ _ (sortDescend_sorted _) (sortDescend_perm _) (by omega),
      discrete_entropy, getD_map _ _ _ ([] : List ℤ) _ hjlt]
  rw [hmap]

/-- Witness for C3 at concrete two-column representations. -/
theorem mutual_info_gap_eq_spec_witness :
    mutual_info_gap [[0, 0, 1, 1], [0, 1, 0, 1]] [[0, 0, 1, 1]] =
      some (mutual_info_gap_spec [[0, 0, 1, 1], [0, 1, 0, 1]] [[0, 0, 1, 1]]) :=
  mutual_info_gap_eq_spec [[0, 0, 1, 1], [0, 1, 0, 1]] [[0, 0, 1, 1]] (by decide)

lemma sortDescend_eq_of_perm (l₁ l₂ : List ℝ) (h : l₁.Perm l₂) :
    sortDescend l₁ = sortDescend l₂ := by
  haveI : IsAntisymm ℝ (fun a b : ℝ => b ≤ a) := ⟨fun a b h1 h2 => le_antisymm h2 h1⟩
  exact List.eq_of_perm_of_sorted
    ((sortDescend_perm l₁).trans (h.trans (sortDescend_perm l₂).symm))
    (sortDescend_sorted l₁) (sortDescend_sorted l₂)

/-- C7: `mutual_info_gap` is invariant under permuting the code columns of the
representations (stated, as in the claim, for at least two code columns). -/
theorem mutual_info_gap_perm_invariant (codes codes' factors : List (List ℤ))
    (hperm : codes.Perm codes') (h2 : 2 ≤ codes.length) :
    mutual_info_gap codes' factors = mutual_info_gap codes factors := by
  have h2' : 2 ≤ codes'.length := by rw [← hperm.length_eq]; exact h2
  unfold mutual_info_gap
  rw [if_pos h2, if_pos h2']
  have hmap : ((List.range factors.length).map fun j =>
      ((sortDescend (colOf (discrete_mutual_info codes' factors) j)).getD 0 0 -
        (sortDescend (colOf (discrete_mutual_info codes' factors) j)).getD 1 0) /
        (discrete_entropy factors).getD j 0) =
      ((List.range factors.length).map fun j =>
      ((sortDescend (colOf (discrete_mutual_info codes factors) j)).getD 0 0 -
        (sortDescend (colOf (discrete_mutual_info codes factors) j)).getD 1 0) /
        (discrete_entropy factors).getD j 0) := by
    apply List.map_congr_left
    intro j hj
    have hcols : (colOf (discrete_mutual_info codes' factors) j).Perm
        (colOf (discrete_mutual_info codes factors) j) := by
      unfold colOf discrete_mutual_info
      rw [List.map_map, List.map_map]
      exact (hperm.map _).symm
    rw [sortDescend_eq_of_perm _ _ hcols]
  rw [hmap]

/-- Witness for C7: swapping the two code columns leaves the MIG unchanged. -/
theorem mutual_info_gap_perm_invariant_witness :
    mutual_info_gap [[0, 1, 0, 1], [0, 0, 1, 1]] [[0, 0, 1, 1]] =
      mutual_info_gap [[0, 0, 1, 1], [0, 1, 0, 1]] [[0, 0, 1, 1]] :=
  mutual_info_gap_perm_invariant [[0, 0, 1, 1], [0, 1, 0, 1]]
    [[0, 1, 0, 1], [0, 0, 1, 1]] [[0, 0, 1, 1]] (by decide) (by decide)

/-- C9: with a single code column, `mutual_info_gap` hits the out-of-range
access `sorted_m[1, :]` and raises `IndexError` (modelled by `none`); it
returns a value exactly when there are at least two code columns. -/
theorem mutual_info_gap_single_code (representations factors : List (List ℤ)) :
    (representations.length = 1 → mutual_info_gap representations factors = none) ∧
    ((∃ v, mutual_info_gap representations factors = some v) ↔
      2 ≤ representations.length) := by
  constructor
  · intro h1
    unfold mutual_info_gap
    rw [if_neg]
    omega
  · constructor
    · rintro ⟨v, hv⟩
      by_contra hlt
      unfold mutual_info_gap at hv
      rw [if_neg hlt] at hv
      exact Option.noConfusion hv
    · intro h2
      exact ⟨_, by unfold mutual_info_gap; rw [if_pos h2]⟩

/-- Witness for C9: a single latent dimension yields the `IndexError` model. -/
theorem mutual_info_gap_single_code_witness :
    mutual_info_gap [[0, 1]] [[0, 1]] = none :=
  (mutual_info_gap_single_code [[0, 1]] [[0, 1]]).1 rfl

/-- `sp.stats.entropy(pk, base, axis)` on a 1-D slice `pk`: the slice is
normalised to a distribution, its Shannon entropy is taken in nats, and the
result is divided by `log base`.  `0 * log 0` terms vanish (`Real.log 0 = 0`
matches `xlogy(0, 0) = 0`); an all-zero slice or `base = 1` fall under the
`x / 0 = 0` convention of the embedding. -/
noncomputable def sp_entropy (pk : List ℝ) (base : ℝ) : ℝ :=
  (pk.map fun x => -(x / pk.sum) * Real.log (x / pk.sum)).sum / Real.log base

/-- `importance_matrix.sum()` of a row-major matrix. -/
noncomputable def totalSum (M : List (List ℝ)) : ℝ := (M.map List.sum).sum

/-- numpy `shape[1]` of a row-major matrix. -/
def numCols (M : List (List ℝ)) : ℕ := (M.headD []).length

/-- `np.ones_like(importance_matrix)`. -/
def onesLike (M : List (List ℝ)) : List (List ℝ) := M.map fun r => r.map fun _ => (1 : ℝ)

/-- The matrix actually used for the importance weights: the python branch
`if importance_matrix.sum() == 0.: importance_matrix = np.ones_like(...)`. -/
noncomputable def fallbackMatrix (M : List (List ℝ)) : List (List ℝ) :=
  if totalSum M = 0 then onesLike M else M

/-- `per_code = 1. - sp.stats.entropy(importance_matrix + 1e-11,
base=importance_matrix.shape[1], axis=1)` from `disentanglement_score`. -/
noncomputable def per_code (M : List (List ℝ)) : List ℝ :=
  M.map fun row => 1 - sp_entropy (row.map fun x => x + 1e-11) (numCols M)

/-- `code_importance = importance_matrix.sum(axis=1) / importance_matrix.sum()`
(computed on the fallback-replaced matrix). -/
noncomputable def code_importance (M : List (List ℝ)) : List ℝ :=
  (fallbackMatrix M).map fun row => row.sum / totalSum (fallbackMatrix M)

/-- `disentanglement_score(importance_matrix)` from `odin/bay/vi/metrics.py`:
`np.sum(per_code * code_importance)`. -/
noncomputable def disentanglement_score (importance_matrix : List (List ℝ)) : ℝ :=
  (((per_code importance_matrix).zip (code_importance importance_matrix)).map
    fun p => p.1 * p.2).sum

/-- `per_factor = 1. - sp.stats.entropy(importance_matrix + 1e-11,
base=importance_matrix.shape[0], axis=0)` from `completeness_score`. -/
noncomputable def per_factor (M : List (List ℝ)) : List ℝ :=
  (List.range (numCols M)).map fun j =>
    1 - sp_entropy ((colOf M j).map fun x => x + 1e-11) M.length

/-- `factor_importance = importance_matrix.sum(axis=0) / importance_matrix.sum()`
(computed on the fallback-replaced matrix). -/
noncomputable def factor_importance (M : List (List ℝ)) : List ℝ :=
  (List.range (numCols M)).map fun j =>
    (colOf (fallbackMatrix M) j).sum / totalSum (fallbackMatrix M)

/-- `completeness_score(importance_matrix)` from `odin/bay/vi/metrics.py`:
`np.sum(per_factor * factor_importance)`. -/
noncomputable def completeness_score (importance_matrix : List (List ℝ)) : ℝ :=
  (((per_factor importance_matrix).zip (factor_importance importance_matrix)).map
    fun p => p.1 * p.2).sum

/-- The degenerate all-zero importance matrix of shape `[d, k]`. -/
def zeroMatrix (d k : ℕ) : List (List ℝ) := List.replicate d (List.replicate k 0)

lemma zip_map_mul_sum {α : Type} (l : List α) (f g : α → ℝ) :
    (((l.map f).zip (l.map g)).map fun p => p.1 * p.2).sum =
      (l.map fun a => f a * g a).sum := by
  rw [List.zip_map', List.map_map]
  rfl

lemma zip_mul_sum_eq_zero (l₁ l₂ : List ℝ) (h : ∀ x ∈ l₁, x = 0) :
    ((l₁.zip l₂).map fun p => p.1 * p.2).sum = 0 := by
  induction l₁ generalizing l₂ with
  | nil => simp
  | cons a t ih =>
    cases l₂ with
    | nil => simp
    | cons b t₂ =>
      rw [List.zip_cons_cons, List.map_cons, List.sum_cons,
        h a (List.mem_cons_self a t)]
      rw [zero_mul, zero_add]
      exact ih t₂ fun x hx => h x (List.mem_cons_of_mem _ hx)

lemma zip_replicate_same {α β : Type} (d : ℕ) (a : α) (b : β) :
    (List.replicate d a).zip (List.replicate d b) = List.replicate d (a, b) := by
  induction d with
  | zero => rfl
  | succ n ih => simp [List.replicate_succ, List.zip_cons_cons, ih]

/-- Normalised entropy of a constant positive slice of length `k ≥ 2`,
with base `k`, is exactly `1`. -/
lemma sp_entropy_replicate (k : ℕ) (y : ℝ) (hy : 0 < y) (hk : 2 ≤ k) :
    sp_entropy (List.replicate k y) (k : ℝ) = 1 := by
  have hk1 : (1 : ℝ) < (k : ℝ) := by exact_mod_cast hk.trans_lt' (by norm_num)
  have hk0 : (0 : ℝ) < (k : ℝ) := lt_trans one_pos hk1
  have hsum : (List.replicate k y).sum = (k : ℝ) * y := by
    rw [List.sum_replicate, nsmul_eq_mul]
  have hq : y / ((k : ℝ) * y) = ((k : ℝ))⁻¹ := by
    rw [eq_comm, inv_eq_iff_eq_inv, eq_comm, inv_div]
    field_simp
  have hlogk : Real.log (k : ℝ) ≠ 0 := ne_of_gt (Real.log_pos hk1)
  unfold sp_entropy
  rw [hsum, List.map_replicate, List.sum_replicate, nsmul_eq_mul, hq, Real.log_inv]
  field_simp

lemma sp_entropy_pair (a b : ℝ) :
    sp_entropy [a, b] 2 =
      (-(a / (a + b)) * Real.log (a / (a + b)) +
        -(b / (a + b)) * Real.log (b / (a + b))) / Real.log 2 := by
  unfold sp_entropy
  norm_num

lemma sp_entropy_pair_comm (a b : ℝ) : sp_entropy [b, a] 2 = sp_entropy [a, b] 2 := by
  rw [sp_entropy_pair, sp_entropy_pair, add_comm b a, add_comm
    (-(b / (a + b)) * Real.log (b / (a + b)))]

lemma neg_mul_log_nonneg {x : ℝ} (hx0 : 0 < x) (hx1 : x ≤ 1) :
    0 ≤ -x * Real.log x := by
  have h := Real.log_nonpos (le_of_lt hx0) hx1
  nlinarith

/-- Numeric bounds for the smoothed entropy of a one-hot row `[1, 0]` of the
identity importance matrix: the `1e-11` smoothing keeps the normalised entropy
within `[0, 1e-9]`. -/
lemma sp_entropy_one_hot_bounds :
    0 ≤ sp_entropy [1 + 1e-11, 0 + 1e-11] 2 ∧
      sp_entropy [1 + 1e-11, 0 + 1e-11] 2 ≤ 1e-9 := by
  rw [sp_entropy_pair]
  have hs : (1 + 1e-11 : ℝ) + (0 + 1e-11) = 1 + 2e-11 := by norm_num
  rw [hs]
  set p : ℝ := (1 + 1e-11) / (1 + 2e-11) with hp
  set q : ℝ := (0 + 1e-11) / (1 + 2e-11) with hq
  have hp0 : 0 < p := by rw [hp]; positivity
  have hp1 : p ≤ 1 := by rw [hp]; rw [div_le_one (by norm_num)]; norm_num
  have hq0 : 0 < q := by rw [hq]; positivity
  have hq1 : q ≤ 1 := by rw [hq]; rw [div_le_one (by norm_num)]; norm_num
  have hlog2pos : (0 : ℝ) < Real.log 2 := Real.log_pos (by norm_num)
  have hterm1 : -p * Real.log p ≤ 1e-11 := by
    have hinv : p⁻¹ = (1 + 2e-11) / (1 + 1e-11) := by
      rw [hp, inv_div]
    have hlogp : -Real.log p = Real.log p⁻¹ := (Real.log_inv p).symm
    have hb : Real.log p⁻¹ ≤ 1e-11 := by
      rw [hinv]
      have h1 : Real.log ((1 + 2e-11) / (1 + 1e-11)) ≤ (1 + 2e-11) / (1 + 1e-11) - 1 :=
        Real.log_le_sub_one_of_pos (by positivity)
      have h2 : (1 + 2e-11 : ℝ) / (1 + 1e-11) - 1 ≤ 1e-11 := by
        rw [div_sub_one (by norm_num : (1 + 1e-11 : ℝ) ≠ 0),
          div_le_iff (by norm_num : (0 : ℝ) < 1 + 1e-11)]
        norm_num
      linarith
    nlinarith [Real.log_nonpos (le_of_lt hp0) hp1]
  have hterm2 : -q * Real.log q ≤ 2.7e-10 := by
    have hinv : q⁻¹ = (1 + 2e-11) / (0 + 1e-11) := by
      rw [hq, inv_div]
    have hqsmall : q ≤ 1e-11 := by
      rw [hq, div_le_iff (by norm_num : (0 : ℝ) < 1 + 2e-11)]
      norm_num
    have hb : Real.log q⁻¹ ≤ 27 := by
      rw [hinv]
      calc Real.log ((1 + 2e-11) / (0 + 1e-11))
          ≤ Real.log ((2 : ℝ) ^ (38 : ℕ)) :=
            Real.log_le_log (by positivity) (by norm_num)
        _ = ((38 : ℕ) : ℝ) * Real.log 2 := Real.log_pow 2 38
        _ ≤ 27 := by
            have := Real.log_two_lt_d9
            push_cast
            nlinarith
    have hlogq : -Real.log q = Real.log q⁻¹ := (Real.log_inv q).symm
    have hlogq0 : 0 ≤ Real.log q⁻¹ := by
      rw [← hlogq]
      linarith [Real.log_nonpos (le_of_lt hq0) hq1]
    calc -q * Real.log q = q * Real.log q⁻¹ := by rw [← hlogq]; ring
      _ ≤ 1e-11 * 27 := by
          apply mul_le_mul hqsmall hb hlogq0 (by norm_num)
      _ ≤ 2.7e-10 := by norm_num
  constructor
  · apply div_nonneg _ (le_of_lt hlog2pos)
    have h1 := neg_mul_log_nonneg hp0 hp1
    have h2 := neg_mul_log_nonneg hq0 hq1
    linarith
  · rw [div_le_iff hlog2pos]
    have hlog2lb : (0.6931471803 : ℝ) < Real.log 2 := Real.log_two_gt_d9
    nlinarith

lemma headD_replicate {α : Type} (d : ℕ) (x y : α) (hd : 1 ≤ d) :
    (List.replicate d x).headD y = x := by
  cases d with
  | zero => omega
  | succ n => rfl

lemma getD_replicate {α : Type} (k j : ℕ) (c y : α) (hj : j < k) :
    (List.replicate k c).getD j y = c := by
  rw [getD_of_lt _ _ _ (by simpa using hj), List.getElem_replicate]

lemma numCols_replicate (d k : ℕ) (c : ℝ) (hd : 1 ≤ d) :
    numCols (List.replicate d (List.replicate k c)) = k := by
  unfold numCols
  rw [headD_replicate _ _ _ hd]
  simp

/-- A uniform importance matrix has disentanglement score exactly `0`:
every row has maximal normalised entropy `1`, so every `per_code` entry
vanishes. -/
lemma disentanglement_uniform (d k : ℕ) (c : ℝ) (hd : 1 ≤ d) (hk : 2 ≤ k)
    (hc : 0 ≤ c) :
    disentanglement_score (List.replicate d (List.replicate k c)) = 0 := by
  apply zip_mul_sum_eq_zero
  intro x hx
  unfold per_code at hx
  obtain ⟨row, hrow, hfx⟩ := List.mem_map.1 hx
  have hr : row = List.replicate k c := List.eq_of_mem_replicate hrow
  rw [← hfx, hr, List.map_replicate, numCols_replicate d k c (by omega),
    sp_entropy_replicate k (c + 1e-11) (by positivity) hk]
  ring

/-- A uniform importance matrix has completeness score exactly `0`. -/
lemma completeness_uniform (d k : ℕ) (c : ℝ) (hd : 2 ≤ d) (hk : 1 ≤ k)
    (hc : 0 ≤ c) :
    completeness_score (List.replicate d (List.replicate k c)) = 0 := by
  apply zip_mul_sum_eq_zero
  intro x hx
  unfold per_factor at hx
  obtain ⟨j, hj, hfx⟩ := List.mem_map.1 hx
  have hjk : j < k := by
    rw [numCols_replicate d k c (by omega)] at hj
    exact List.mem_range.1 hj
  have hcol : colOf (List.replicate d (List.replicate k c)) j =
      List.replicate d c := by
    unfold colOf
    rw [List.map_replicate, getD_replicate _ _ _ _ hjk]
  have hlen : (List.replicate d (List.replicate k c)).length = d := by simp
  rw [← hfx, hcol, List.map_replicate, hlen,
    sp_entropy_replicate d (c + 1e-11) (by positivity) hd]
  ring

lemma disentanglement_diag2 :
    disentanglement_score [[1, 0], [0, 1]] =
      1 - sp_entropy [1 + 1e-11, 0 + 1e-11] 2 := by
  unfold disentanglement_score per_code code_importance fallbackMatrix totalSum numCols
  norm_num
  rw [sp_entropy_pair_comm]
  ring

lemma completeness_diag2 :
    completeness_score [[1, 0], [0, 1]] =
      1 - sp_entropy [1 + 1e-11, 0 + 1e-11] 2 := by
  unfold completeness_score per_factor factor_importance fallbackMatrix totalSum numCols colOf
  norm_num [List.range_succ]
  rw [sp_entropy_pair_comm]
  ring

/-- C4: for a non-negative importance matrix with positive total mass the
disentanglement score is the sum over codes of
`(1 - normalised entropy of the smoothed row, base = number of factors)`
weighted by the row's share of the total mass, and the completeness score is
the column-wise analogue (base = number of codes); consequently every uniform
importance matrix scores exactly `0` on both, and the diagonal `2 x 2`
importance matrix scores within `1e-9` of `1` on both. -/
theorem dci_scores_characterisation :
    (∀ M : List (List ℝ), (∀ r ∈ M, ∀ x ∈ r, 0 ≤ x) → 0 < totalSum M →
      disentanglement_score M =
        (M.map fun row =>
          (1 - sp_entropy (row.map fun x => x + 1e-11) (numCols M)) *
            (row.sum / totalSum M)).sum ∧
      completeness_score M =
        ((List.range (numCols M)).map fun j =>
          (1 - sp_entropy ((colOf M j).map fun x => x + 1e-11) M.length) *
            ((colOf M j).sum / totalSum M)).sum) ∧
    (∀ d k : ℕ, ∀ c : ℝ, 2 ≤ d → 2 ≤ k → 0 < c →
      disentanglement_score (List.replicate d (List.replicate k c)) = 0 ∧
      completeness_score (List.replicate d (List.replicate k c)) = 0) ∧
    (1 - 1e-9 ≤ disentanglement_score [[1, 0], [0, 1]] ∧
      disentanglement_score [[1, 0], [0, 1]] ≤ 1 ∧
      1 - 1e-9 ≤ completeness_score [[1, 0], [0, 1]] ∧
      completeness_score [[1, 0], [0, 1]] ≤ 1) := by
  refine ⟨?_, fun d k c hd hk hc =>
    ⟨disentanglement_uniform d k c (by omega) hk (le_of_lt hc),
      completeness_uniform d k c hd (by omega) (le_of_lt hc)⟩, ?_⟩
  · intro M hnn hpos
    have hfb : fallbackMatrix M = M := by
      unfold fallbackMatrix
      rw [if_neg (ne_of_gt hpos)]
    constructor
    · unfold disentanglement_score per_code code_importance
      rw [hfb]
      exact zip_map_mul_sum M _ _
    · unfold completeness_score per_factor factor_importance
      rw [hfb]
      exact zip_map_mul_sum (List.range (numCols M)) _ _
  · have hb := sp_entropy_one_hot_bounds
    refine ⟨?_, ?_, ?_, ?_⟩
    · rw [disentanglement_diag2]
      linarith [hb.2]
    · rw [disentanglement_diag2]
      linarith [hb.1]
    · rw [completeness_diag2]
      linarith [hb.2]
    · rw [completeness_diag2]
      linarith [hb.1]

/-- Witness for C4: the weighted-sum characterisation instantiated at the
concrete non-negative matrix `[[1, 0], [0, 1]]` of positive total mass. -/
theorem dci_scores_characterisation_witness :
    disentanglement_score [[1, 0], [0, 1]] =
      (([[1, 0], [0, 1]] : List (List ℝ)).map fun row =>
        (1 - sp_entropy (row.map fun x => x + 1e-11) (numCols [[1, 0], [0, 1]])) *
          (row.sum / totalSum [[1, 0], [0, 1]])).sum ∧
    completeness_score [[1, 0], [0, 1]] =
      ((List.range (numCols [[1, 0], [0, 1]])).map fun j =>
        (1 - sp_entropy ((colOf [[1, 0], [0, 1]] j).map fun x => x + 1e-11)
          ([[1, 0], [0, 1]] : List (List ℝ)).length) *
          ((colOf [[1, 0], [0, 1]] j).sum / totalSum [[1, 0], [0, 1]])).sum :=
  dci_scores_characterisation.1 [[1, 0], [0, 1]]
    (by
      intro r hr x hx
      fin_cases hr <;> fin_cases hx <;> norm_num)
    (by norm_num [totalSum])

/-- C5: on the all-zero importance matrix the weights fall back to the
all-ones matrix, i.e. to the uniform shares `1/d` per code and `1/k` per
factor, and (for at least two factors resp. codes) both scores are the finite
value `0` - no `0 / 0` mass normalisation occurs. -/
theorem zero_importance_uniform_fallback (d k : ℕ) (hd : 1 ≤ d) (hk : 1 ≤ k) :
    disentanglement_score (zeroMatrix d k) =
      ((zeroMatrix d k).map fun row =>
        (1 - sp_entropy (row.map fun x => x + 1e-11) (numCols (zeroMatrix d k))) *
          ((1 : ℝ) / (d : ℝ))).sum ∧
    completeness_score (zeroMatrix d k) =
      ((List.range (numCols (zeroMatrix d k))).map fun j =>
        (1 - sp_entropy ((colOf (zeroMatrix d k) j).map fun x => x + 1e-11)
          ((zeroMatrix d k).length)) * ((1 : ℝ) / (k : ℝ))).sum ∧
    (2 ≤ k → disentanglement_score (zeroMatrix d k) = 0) ∧
    (2 ≤ d → completeness_score (zeroMatrix d k) = 0) := by
  have hd0 : ((d : ℝ)) ≠ 0 := Nat.cast_ne_zero.2 (by omega)
  have hk0 : ((k : ℝ)) ≠ 0 := Nat.cast_ne_zero.2 (by omega)
  have hnc : numCols (zeroMatrix d k) = k := numCols_replicate d k 0 hd
  have htot : totalSum (zeroMatrix d k) = 0 := by
    simp [totalSum, zeroMatrix, List.map_replicate, List.sum_replicate]
  have hfb : fallbackMatrix (zeroMatrix d k) =
      List.replicate d (List.replicate k 1) := by
    unfold fallbackMatrix
    rw [if_pos htot]
    unfold onesLike zeroMatrix
    rw [List.map_replicate, List.map_replicate]
  have htot1 : totalSum (List.replicate d (List.replicate k (1 : ℝ))) =
      (d : ℝ) * (k : ℝ) := by
    simp [totalSum, List.map_replicate, List.sum_replicate, nsmul_eq_mul]
  have hci : code_importance (zeroMatrix d k) = List.replicate d ((1 : ℝ) / (d : ℝ)) := by
    unfold code_importance
    rw [hfb, htot1, List.map_replicate, List.sum_replicate, nsmul_eq_mul]
    congr 1
    field_simp
    ring
  refine ⟨?_, ?_, ?_, ?_⟩
  · have hpc : per_code (zeroMatrix d k) =
        List.replicate d (1 - sp_entropy ((List.replicate k (0 : ℝ)).map fun x => x + 1e-11)
          (numCols (zeroMatrix d k))) := by
      unfold per_code zeroMatrix
      rw [List.map_replicate]
    unfold disentanglement_score
    rw [hci, hpc]
    conv_lhs => rw [zip_replicate_same, List.map_replicate, List.sum_replicate]
    conv_rhs => rw [show zeroMatrix d k = List.replicate d (List.replicate k (0 : ℝ)) from rfl,
      List.map_replicate, List.sum_replicate]
    simp
    exact Or.inl rfl
  · have hfi : factor_importance (zeroMatrix d k) =
        (List.range (numCols (zeroMatrix d k))).map fun _ => (1 : ℝ) / (k : ℝ) := by
      unfold factor_importance
      rw [hfb, htot1]
      apply List.map_congr_left
      intro j hj
      have hjk : j < k := by
        rwa [hnc, List.mem_range] at hj
      have hcol : colOf (List.replicate d (List.replicate k (1 : ℝ))) j =
          List.replicate d 1 := by
        unfold colOf
        rw [List.map_replicate, getD_replicate _ _ _ _ hjk]
      rw [hcol, List.sum_replicate, nsmul_eq_mul, mul_one]
      field_simp
    unfold completeness_score
    rw [hfi]
    unfold per_factor
    exact zip_map_mul_sum (List.range (numCols (zeroMatrix d k))) _ _
  · intro hk2
    exact disentanglement_uniform d k 0 hd hk2 le_rfl
  · intro hd2
    exact completeness_uniform d k 0 hd2 hk le_rfl

/-- Witness for C5 at the concrete shape `d = k = 2`. -/
theorem zero_importance_uniform_fallback_witness :
    disentanglement_score (zeroMatrix 2 2) = 0 ∧
      completeness_score (zeroMatrix 2 2) = 0 :=
  ⟨(zero_importance_uniform_fallback 2 2 (by norm_num) (by norm_num)).2.2.1 (le_refl 2),
    (zero_importance_uniform_fallback 2 2 (by norm_num) (by norm_num)).2.2.2 (le_refl 2)⟩

/-- The largest finite float64, `np.finfo(np.float64).max`: the value
`np.nan_to_num` substitutes for `+inf` when `posinf` is left at its default. -/
def floatMax : ℝ := 1.7976931348623157e308

/-- `np.nan_to_num(num / den, copy=False, nan=0.0)` for a float division:
`0 / 0` is NaN and becomes `0`; `num / 0` with `num > 0` is `+inf` and becomes
the largest finite float (numpy's default `posinf` replacement); with
`num < 0` it is `-inf` and becomes the lowest finite float; an ordinary
quotient is returned unchanged.  (The float `-0.0` divisor, which would flip
the sign of the infinity, has no counterpart in `ℝ`.) -/
noncomputable def nan_to_num_div (num den : ℝ) : ℝ :=
  if den = 0 then
    if num = 0 then 0 else if 0 < num then floatMax else -floatMax
  else num / den

/-- `relative_strength(mat)` from `odin/bay/vi/metrics.py`:
`score_x = np.mean(np.nan_to_num(np.max(mat, axis=0)**2 / np.sum(mat, axis=0), copy=False, nan=0.0))`,
`score_y` the same along `axis=1`, and the result `(score_x + score_y) / 2`. -/
noncomputable def relative_strength (mat : List (List ℝ)) : ℝ :=
  (mean ((List.range (numCols mat)).map fun j =>
      nan_to_num_div (listMax (colOf mat j) ^ 2) (colOf mat j).sum) +
    mean (mat.map fun row => nan_to_num_div (listMax row ^ 2) row.sum)) / 2

/-- C6 as the claim words it: per-line `max(line)^2 / sum(line)` with any NaN
produced by a zero-sum line replaced by `0` (and nothing else replaced). -/
noncomputable def relative_strength_claimed (mat : List (List ℝ)) : ℝ :=
  (mean ((List.range (numCols mat)).map fun j =>
      if (colOf mat j).sum = 0 then 0
      else listMax (colOf mat j) ^ 2 / (colOf mat j).sum) +
    mean (mat.map fun row =>
      if row.sum = 0 then 0 else listMax row ^ 2 / row.sum)) / 2

/-- The identity correlation matrix of size `n`. -/
def identityMatrix (n : ℕ) : List (List ℝ) :=
  (List.range n).map fun i => (List.range n).map fun j => if i = j then 1 else 0

lemma sum_indicator (n j : ℕ) :
    ((List.range n).map fun i => if i = j then (1 : ℝ) else 0).sum =
      if j < n then 1 else 0 := by
  induction n with
  | zero => simp
  | succ m ih =>
    rw [List.range_succ, List.map_append, List.sum_append, ih]
    simp only [List.map_cons, List.map_nil, List.sum_cons, List.sum_nil]
    by_cases h1 : j < m
    · rw [if_pos h1, if_neg (show ¬m = j by omega), if_pos (show j < m + 1 by omega)]
      norm_num
    · by_cases h2 : j = m
      · rw [if_neg h1, if_pos (show m = j by omega), if_pos (show j < m + 1 by omega)]
        norm_num
      · rw [if_neg h1, if_neg (show ¬m = j by omega), if_neg (show ¬j < m + 1 by omega)]
        norm_num

lemma listMax_indicator (n j : ℕ) (hj : j < n) :
    listMax ((List.range n).map fun i => if i = j then (1 : ℝ) else 0) = 1 := by
  apply listMax_eq_of
  · exact List.mem_map.2 ⟨j, List.mem_range.2 hj, by simp⟩
  · intro x hx
    obtain ⟨i, -, hix⟩ := List.mem_map.1 hx
    rw [← hix]
    split
    · exact le_refl 1
    · norm_num

lemma colOf_identity (n j : ℕ) (hj : j < n) :
    colOf (identityMatrix n) j =
      (List.range n).map fun i => if i = j then (1 : ℝ) else 0 := by
  unfold colOf identityMatrix
  rw [List.map_map]
  apply List.map_congr_left
  intro i hi
  show ((List.range n).map fun q => if i = q then (1 : ℝ) else 0).getD j 0 = _
  rw [getD_map _ _ _ 0 _ (by simpa using hj), getD_of_lt _ _ _ (by simpa using hj),
    List.getElem_range]

lemma row_indicator_comm (n i : ℕ) :
    ((List.range n).map fun j => if i = j then (1 : ℝ) else 0) =
      (List.range n).map fun j => if j = i then (1 : ℝ) else 0 := by
  apply List.map_congr_left
  intro j hj
  by_cases h : i = j
  · rw [if_pos h, if_pos h.symm]
  · rw [if_neg h, if_neg fun hh => h hh.symm]

lemma numCols_identity (n : ℕ) (hn : 1 ≤ n) : numCols (identityMatrix n) = n := by
  unfold numCols identityMatrix
  cases n with
  | zero => omega
  | succ m =>
    rw [List.range_succ_eq_map, List.map_cons]
    simp

lemma sum_of_all_one (L : List ℝ) (h : ∀ x ∈ L, x = 1) :
    L.sum = (L.length : ℝ) := by
  induction L with
  | nil => simp
  | cons a t ih =>
    rw [List.sum_cons, List.length_cons, h a (List.mem_cons_self a t),
      ih fun x hx => h x (List.mem_cons_of_mem _ hx)]
    push_cast
    ring

lemma mean_of_all_one (L : List ℝ) (h : ∀ x ∈ L, x = 1) (hne : L ≠ []) :
    mean L = 1 := by
  unfold mean
  rw [sum_of_all_one L h, div_self]
  exact Nat.cast_ne_zero.2 (List.length_pos.2 hne).ne'

/-- Splitting `nan_to_num_div` on a squared numerator: the `-inf` branch is
unreachable, so the term is the plain quotient, with a zero-sum line giving
`0` when the line's maximum is `0` (the NaN case) and the largest finite
float otherwise (the `+inf` case). -/
lemma nan_to_num_div_sq (m s : ℝ) :
    nan_to_num_div (m ^ 2) s =
      if s = 0 then (if m ^ 2 = 0 then 0 else floatMax) else m ^ 2 / s := by
  unfold nan_to_num_div
  by_cases hs : s = 0
  · rw [if_pos hs, if_pos hs]
    by_cases hm : m ^ 2 = 0
    · rw [if_pos hm, if_pos hm]
    · rw [if_neg hm, if_neg hm, if_pos (lt_of_le_of_ne (sq_nonneg m) (Ne.symm hm))]
  · rw [if_neg hs, if_neg hs]

/-- C6 (amended): `relative_strength` is the average of the two axis scores
where each slice contributes `nan_to_num(max(slice)^2 / sum(slice))`: the
quotient itself on a slice of nonzero sum, `0` on an all-`0/0` slice (the
NaN case), and the largest finite float on a zero-sum slice whose maximum is
nonzero (the `+inf` case, which numpy replaces by `1.7976931348623157e308`,
not by `0`); on the identity correlation matrix of any size `n ≥ 1` the
result is exactly `1`. -/
theorem relative_strength_characterisation :
    (∀ mat : List (List ℝ),
      relative_strength mat =
        (mean ((List.range (numCols mat)).map fun j =>
            if (colOf mat j).sum = 0 then
              (if listMax (colOf mat j) ^ 2 = 0 then 0 else floatMax)
            else listMax (colOf mat j) ^ 2 / (colOf mat j).sum) +
          mean (mat.map fun row =>
            if row.sum = 0 then (if listMax row ^ 2 = 0 then 0 else floatMax)
            else listMax row ^ 2 / row.sum)) / 2) ∧
    (∀ n : ℕ, 1 ≤ n → relative_strength (identityMatrix n) = 1) := by
  constructor
  · intro mat
    unfold relative_strength
    have hA : ((List.range (numCols mat)).map fun j =>
        nan_to_num_div (listMax (colOf mat j) ^ 2) (colOf mat j).sum) =
        (List.range (numCols mat)).map fun j =>
          if (colOf mat j).sum = 0 then
            (if listMax (colOf mat j) ^ 2 = 0 then 0 else floatMax)
          else listMax (colOf mat j) ^ 2 / (colOf mat j).sum := by
      apply List.map_congr_left
      intro j hj
      exact nan_to_num_div_sq _ _
    have hB : (mat.map fun row => nan_to_num_div (listMax row ^ 2) row.sum) =
        mat.map fun row =>
          if row.sum = 0 then (if listMax row ^ 2 = 0 then 0 else floatMax)
          else listMax row ^ 2 / row.sum := by
      apply List.map_congr_left
      intro row hrow
      exact nan_to_num_div_sq _ _
    rw [hA, hB]
  · intro n hn
    unfold relative_strength
    have hx : mean ((List.range (numCols (identityMatrix n))).map fun j =>
        nan_to_num_div (listMax (colOf (identityMatrix n) j) ^ 2)
          (colOf (identityMatrix n) j).sum) = 1 := by
      apply mean_of_all_one
      · intro x hx
        obtain ⟨j, hj, hjx⟩ := List.mem_map.1 hx
        have hjn : j < n := by
          rwa [numCols_identity n hn, List.mem_range] at hj
        rw [← hjx, colOf_identity n j hjn, listMax_indicator n j hjn,
          sum_indicator, if_pos hjn]
        norm_num [nan_to_num_div]
      · intro hcon
        have hlen := congrArg List.length hcon
        rw [List.length_map, List.length_range, List.length_nil,
          numCols_identity n hn] at hlen
        omega
    have hy : mean ((identityMatrix n).map fun row =>
        nan_to_num_div (listMax row ^ 2) row.sum) = 1 := by
      apply mean_of_all_one
      · intro x hxm
        obtain ⟨row, hrow, hrx⟩ := List.mem_map.1 hxm
        unfold identityMatrix at hrow
        obtain ⟨i, hi, hirow⟩ := List.mem_map.1 hrow
        have hin : i < n := List.mem_range.1 hi
        rw [← hrx, ← hirow, row_indicator_comm, listMax_indicator n i hin,
          sum_indicator, if_pos hin]
        norm_num [nan_to_num_div]
      · intro hcon
        have hlen := congrArg List.length hcon
        unfold identityMatrix at hlen
        rw [List.length_map, List.length_map, List.length_range,
          List.length_nil] at hlen
        omega
    rw [hx, hy]
    norm_num

/-- Witness for C6 at the concrete size `n = 3`. -/
theorem relative_strength_characterisation_witness :
    relative_strength (identityMatrix 3) = 1 :=
  relative_strength_characterisation.2 3 (by norm_num)

/-- C6 counterexample: on the correlation matrix `[[1, -1], [-1, 1]]` (entries
in `[-1, 1]`) every line sums to `0` while its maximum is `1`, so the code's
`nan_to_num` turns the `+inf` quotients into the largest finite float and
`relative_strength` returns `1.7976931348623157e308`; the claimed formula,
which sends every zero-sum line to `0`, returns `0` instead. -/
theorem relative_strength_claimed_counterexample :
    relative_strength [[1, -1], [-1, 1]] = floatMax ∧
    relative_strength_claimed [[1, -1], [-1, 1]] = 0 ∧
    relative_strength [[1, -1], [-1, 1]] ≠
      relative_strength_claimed [[1, -1], [-1, 1]] := by
  have h1 : relative_strength [[1, -1], [-1, 1]] = floatMax := by
    simp only [relative_strength, nan_to_num_div, mean, numCols, colOf, listMax]
    norm_num [List.range_succ, max_def]
  have h2 : relative_strength_claimed [[1, -1], [-1, 1]] = 0 := by
    simp only [relative_strength_claimed, mean, numCols, colOf]
    norm_num [List.range_succ]
  refine ⟨h1, h2, ?_⟩
  rw [h1, h2]
  norm_num [floatMax]

/-- C1 (code bug): at a concrete well-formed input, requesting
`prediction_algorithm = both` raises `NameError` on the unbound name
`clustering_scores` instead of returning the elementwise average of the
k-means scores and the Gaussian-mixture scores promised by the docstring. -/
theorem clustering_both_raises_nameError :
    unsupervised_clustering_scores [[0, 1], [1, 0]] [[0], [1]] "both" 1 =
      Except.error (PyError.nameError "clustering_scores") := by
  simp [unsupervised_clustering_scores]

end Odin
